import Mathlib

/-
  Verification of the SAGA statistical validation engine (saga.py).

  The engine is embedded shallowly over ℚ: every Python float value is a
  rational number, so float arithmetic is modelled by exact rational
  arithmetic.  The transcendental library functions the code calls
  (math.exp, math.sqrt, math.log, cube root, scipy's skew/kurtosis and
  chi-square CDF, numpy's corrcoef/eigh/matrix_rank) are external
  collaborators; they are abstracted as an `Oracles` record of function
  parameters, so every theorem holds for an arbitrary implementation of
  those externals.  Fallible code (Python exceptions) is modelled with
  `Option`: `none` is a raised exception.
-/

namespace SAGA

/-- Tailcut rate (`tau = 14` in saga.py). -/
def tau : ℚ := 14

/-- Minimal size of a bucket for the chi-squared test (`chi2_bucket = 10`). -/
def chi2_bucket : ℚ := 10

/-- Minimal p-value (`pmin = 0.001`). -/
def pmin : ℚ := 1 / 1000

/-- Python's `range(a, b)` on integers: the list `[a, a+1, ..., b-1]`
(empty when `b ≤ a`). -/
def pyRange (a b : ℤ) : List ℤ :=
  (List.range (b - a).toNat).map (fun (n : ℕ) => a + (n : ℤ))

/-- Computable `math.ceil` on a rational (`Rat.floor` is `math.floor`). -/
def qceil (q : ℚ) : ℤ := -Rat.floor (-q)

theorem ratFloor_eq (q : ℚ) : q.floor = ⌊q⌋ := by
  rw [Rat.floor_def', Rat.floor_def]

theorem qceil_eq (q : ℚ) : qceil q = ⌈q⌉ := by
  unfold qceil
  rw [ratFloor_eq, Int.floor_neg]
  ring

/-- Python 3's `round` on a rational: round half to even (banker's rounding). -/
def pyRound (q : ℚ) : ℤ :=
  let f := Rat.floor q
  let r := q - f
  if r < 1 / 2 then f
  else if 1 / 2 < r then f + 1
  else if f % 2 = 0 then f else f + 1

/-- The external (library) functions used by saga.py, abstracted as
parameters: `gexp` is `math.exp`, `chi2cdf s df` is `scipy.stats.chi2.cdf`,
`sqrtO`/`logO`/`cbrtO` are `math.sqrt`, `log` and the cube root `** (1/3)`,
`skewO`/`kurtO` are `scipy.stats.skew`/`kurtosis`, `corrcoefO`/`eighO`/`rankO`
are `numpy.corrcoef`/`numpy.linalg.eigh`/`numpy.linalg.matrix_rank`. -/
structure Oracles where
  gexp : ℚ → ℚ
  chi2cdf : ℚ → ℚ → ℚ
  sqrtO : ℚ → ℚ
  logO : ℚ → ℚ
  cbrtO : ℚ → ℚ
  skewO : List ℤ → ℚ
  kurtO : List ℤ → ℚ
  corrcoefO : List (List ℚ) → List (List ℚ)
  eighO : List (List ℚ) → List ℚ × List (List ℚ)
  rankO : List (List ℚ) → ℕ

/-- The function `gaussian(x, mu, sigma)` from saga.py:
`exp(- ((x - mu) ** 2) / (2 * (sigma ** 2)))`.
The Python float division raises `ZeroDivisionError` when the denominator
`2 * sigma ** 2` is zero, hence the `Option`. -/
def gaussianE (gexp : ℚ → ℚ) (x mu sigma : ℚ) : Option ℚ :=
  if 2 * sigma ^ 2 = 0 then none
  else some (gexp (-((x - mu) ^ 2) / (2 * sigma ^ 2)))

/-- The argument saga.py's `gaussian` passes to `exp`. -/
def gaussArg (mu sigma : ℚ) (z : ℤ) : ℚ :=
  -(((z : ℚ) - mu) ^ 2) / (2 * sigma ^ 2)

/-- The support of the PDT and of the univariate histogram:
`range(floor(mu) - zmax, ceil(mu) + zmax)` with `zmax = ceil(tau * sigma)`. -/
def pdtSupport (mu sigma : ℚ) : List ℤ :=
  pyRange (Rat.floor mu - qceil (tau * sigma)) (qceil mu + qceil (tau * sigma))

theorem pdtSupport_def (mu sigma : ℚ) :
    pdtSupport mu sigma =
      pyRange (⌊mu⌋ - ⌈tau * sigma⌉) (⌈mu⌉ + ⌈tau * sigma⌉) := by
  rw [pdtSupport, ratFloor_eq, qceil_eq, qceil_eq]

/-- The function `make_gaussian_pdt(mu, sigma)` from saga.py: a table over
`range(floor(mu) - zmax, ceil(mu) + zmax)` with `zmax = ceil(tau * sigma)`
(that range is `pdtSupport`), filled with `gaussian` values and then
normalized by their sum.  The Python dict (which preserves insertion order)
is modelled as an association list in range order.  Normalizing an entry by
a zero sum raises `ZeroDivisionError`, hence `none` there. -/
def make_gaussian_pdt (gexp : ℚ → ℚ) (mu sigma : ℚ) : Option (List (ℤ × ℚ)) := do
  let entries ← (pdtSupport mu sigma).mapM (fun (z : ℤ) =>
    (gaussianE gexp ((z : ℤ) : ℚ) mu sigma).map (fun v => ((z, v) : ℤ × ℚ)))
  let gauss_sum := (entries.map Prod.snd).sum
  if gauss_sum = 0 ∧ entries ≠ [] then none
  else some (entries.map (fun p => (p.1, p.2 / gauss_sum)))

/-- The un-normalized Gaussian mass the PDT assigns over its support. -/
def pdtRawSum (gexp : ℚ → ℚ) (mu sigma : ℚ) : ℚ :=
  ((pdtSupport mu sigma).map (fun z => gexp (gaussArg mu sigma z))).sum

theorem pyRange_mem {a b z : ℤ} : z ∈ pyRange a b ↔ a ≤ z ∧ z < b := by
  unfold pyRange
  rw [List.mem_map]
  constructor
  · rintro ⟨i, hi, rfl⟩
    have := List.mem_range.mp hi
    omega
  · rintro ⟨h1, h2⟩
    exact ⟨(z - a).toNat, List.mem_range.mpr (by omega), by omega⟩

theorem pyRange_eq_nil {a b : ℤ} : pyRange a b = [] ↔ b ≤ a := by
  unfold pyRange
  rw [List.map_eq_nil_iff, List.range_eq_nil]
  omega

theorem list_sum_div (l : List ℚ) (s : ℚ) :
    (l.map (fun x => x / s)).sum = l.sum / s := by
  induction l with
  | nil => simp
  | cons x xs ih => simp [ih, add_div]

theorem mapM_gaussian (gexp : ℚ → ℚ) (mu sigma : ℚ) (hs : sigma ≠ 0)
    (keys : List ℤ) :
    keys.mapM (fun (z : ℤ) =>
        (gaussianE gexp ((z : ℤ) : ℚ) mu sigma).map (fun v => ((z, v) : ℤ × ℚ)))
      = some (keys.map (fun z => (z, gexp (gaussArg mu sigma z)))) := by
  have h2 : (2 : ℚ) * sigma ^ 2 ≠ 0 := by positivity
  induction keys with
  | nil => rfl
  | cons k ks ih =>
    rw [List.mapM_cons, ih]
    simp [gaussianE, gaussArg, h2]

theorem make_gaussian_pdt_eq (gexp : ℚ → ℚ) (mu sigma : ℚ) (hs : sigma ≠ 0) :
    make_gaussian_pdt gexp mu sigma =
      (if pdtRawSum gexp mu sigma = 0 ∧ pdtSupport mu sigma ≠ [] then none
       else some ((pdtSupport mu sigma).map (fun z =>
         (z, gexp (gaussArg mu sigma z) / pdtRawSum gexp mu sigma)))) := by
  unfold make_gaussian_pdt pdtRawSum
  rw [mapM_gaussian gexp mu sigma hs]
  simp only [Option.bind_eq_bind, Option.some_bind, List.map_map,
    Function.comp_def, ne_eq, List.map_eq_nil_iff]

theorem make_gaussian_pdt_nil (gexp : ℚ → ℚ) (mu sigma : ℚ)
    (h : pdtSupport mu sigma = []) :
    make_gaussian_pdt gexp mu sigma = some [] := by
  unfold make_gaussian_pdt
  rw [h]
  rfl

theorem make_gaussian_pdt_zero_sigma (gexp : ℚ → ℚ) (mu : ℚ)
    (h : pdtSupport mu 0 ≠ []) :
    make_gaussian_pdt gexp mu 0 = none := by
  obtain ⟨k, ks, hk⟩ := List.exists_cons_of_ne_nil h
  unfold make_gaussian_pdt
  rw [hk, List.mapM_cons]
  simp [gaussianE]

theorem pdtSupport_ne_nil (mu sigma : ℚ) (hs : 0 < sigma) :
    pdtSupport mu sigma ≠ [] := by
  have hz : 0 < ⌈tau * sigma⌉ := by
    rw [Int.ceil_pos]
    have htau : (0 : ℚ) < tau := by norm_num [tau]
    positivity
  have hfc : ⌊mu⌋ ≤ ⌈mu⌉ := Int.floor_le_ceil mu
  rw [pdtSupport_def, Ne, pyRange_eq_nil, not_le]
  omega

theorem pdtRawSum_pos (gexp : ℚ → ℚ) (hexp : ∀ x, 0 < gexp x) (mu sigma : ℚ)
    (h : pdtSupport mu sigma ≠ []) : 0 < pdtRawSum gexp mu sigma := by
  apply List.sum_pos
  · intro x hx
    obtain ⟨z, _, rfl⟩ := List.mem_map.mp hx
    exact hexp _
  · simpa [pdtRawSum, Ne, List.map_eq_nil_iff] using h

/-- C3: for every center `mu` and every `sigma > 0` (and any positive model
of `exp`), `make_gaussian_pdt mu sigma` returns a table whose keys are
exactly the integers in `[⌊mu⌋ - zmax, ⌈mu⌉ + zmax)` with
`zmax = ⌈14 * sigma⌉`, whose values sum to 1, and whose values are all
strictly positive. -/
theorem claim_C3 (gexp : ℚ → ℚ) (hexp : ∀ x, 0 < gexp x) (mu sigma : ℚ)
    (hs : 0 < sigma) :
    ∃ pdt, make_gaussian_pdt gexp mu sigma = some pdt ∧
      (∀ z : ℤ, z ∈ pdt.map Prod.fst ↔
        ⌊mu⌋ - ⌈(14 : ℚ) * sigma⌉ ≤ z ∧ z < ⌈mu⌉ + ⌈(14 : ℚ) * sigma⌉) ∧
      (pdt.map Prod.snd).sum = 1 ∧
      (∀ p ∈ pdt, 0 < p.2) := by
  have hne := pdtSupport_ne_nil mu sigma hs
  have hpos := pdtRawSum_pos gexp hexp mu sigma hne
  have hmk := make_gaussian_pdt_eq gexp mu sigma (ne_of_gt hs)
  rw [if_neg (by rintro ⟨h0, -⟩; exact absurd h0 (ne_of_gt hpos))] at hmk
  refine ⟨_, hmk, ?_, ?_, ?_⟩
  · intro z
    have h14 : (14 : ℚ) = tau := by norm_num [tau]
    rw [h14]
    simp only [List.map_map, Function.comp_def]
    simpa [pdtSupport_def] using (pyRange_mem (a := ⌊mu⌋ - ⌈tau * sigma⌉)
      (b := ⌈mu⌉ + ⌈tau * sigma⌉) (z := z))
  · simp only [List.map_map, Function.comp_def]
    rw [show ((pdtSupport mu sigma).map
        (fun z : ℤ => gexp (gaussArg mu sigma z) / pdtRawSum gexp mu sigma)) =
        (((pdtSupport mu sigma).map
          (fun z : ℤ => gexp (gaussArg mu sigma z))).map
            (fun x => x / pdtRawSum gexp mu sigma)) by
      rw [List.map_map]; rfl]
    rw [list_sum_div]
    exact div_self (ne_of_gt hpos)
  · intro p hp
    obtain ⟨z, _, rfl⟩ := List.mem_map.mp hp
    exact div_pos (hexp _) hpos

/-- C3 witness: instantiation at `gexp = const 1`, `mu = 0`, `sigma = 1`. -/
theorem claim_C3_witness :
    ∃ pdt, make_gaussian_pdt (fun _ => (1 : ℚ)) 0 1 = some pdt ∧
      (∀ z : ℤ, z ∈ pdt.map Prod.fst ↔
        ⌊(0 : ℚ)⌋ - ⌈(14 : ℚ) * 1⌉ ≤ z ∧ z < ⌈(0 : ℚ)⌉ + ⌈(14 : ℚ) * 1⌉) ∧
      (pdt.map Prod.snd).sum = 1 ∧
      (∀ p ∈ pdt, 0 < p.2) :=
  claim_C3 (fun _ => 1) (fun _ => one_pos) 0 1 one_pos

/-- C4 counterexample: at `sigma = -1 ≤ 0` (any model of `exp`, here the
constant 1), `make_gaussian_pdt` does not signal an error: the support range
`range(floor(0) + 14, ceil(0) - 14)` is empty and the function silently
returns the empty table. -/
theorem claim_C4_counterexample :
    make_gaussian_pdt (fun _ => (1 : ℚ)) 0 (-1) = some [] ∧ (-1 : ℚ) ≤ 0 := by
  refine ⟨?_, by norm_num⟩
  apply make_gaussian_pdt_nil
  rw [pdtSupport_def, pyRange_eq_nil]
  have h1 : ⌈tau * (-1 : ℚ)⌉ = -14 := by
    rw [show tau * (-1 : ℚ) = ((-14 : ℤ) : ℚ) by norm_num [tau],
      Int.ceil_intCast]
  have h2 : ⌊(0 : ℚ)⌋ = 0 := Int.floor_zero
  have h3 : ⌈(0 : ℚ)⌉ = 0 := Int.ceil_zero
  omega

/-- C4 (amended): `make_gaussian_pdt` raises only when `sigma = 0` and `mu`
is not an integer (the `ZeroDivisionError` inside `gaussian`); for every
`sigma > 0` it succeeds with a non-empty table; for every other non-positive
`sigma` it silently returns a table (the empty one whenever the support
range is empty). -/
theorem claim_C4_amended (gexp : ℚ → ℚ) (hexp : ∀ x, 0 < gexp x)
    (mu sigma : ℚ) :
    (make_gaussian_pdt gexp mu sigma = none ↔ sigma = 0 ∧ ⌊mu⌋ < ⌈mu⌉) ∧
    (0 < sigma → ∃ pdt, make_gaussian_pdt gexp mu sigma = some pdt ∧
      pdt ≠ []) := by
  constructor
  · constructor
    · intro hnone
      by_cases hs : sigma = 0
      · subst hs
        refine ⟨rfl, ?_⟩
        by_contra hle
        have hnil : pdtSupport mu 0 = [] := by
          rw [pdtSupport_def, pyRange_eq_nil]
          have hc : ⌈tau * (0 : ℚ)⌉ = 0 := by norm_num
          omega
        rw [make_gaussian_pdt_nil gexp mu 0 hnil] at hnone
        exact Option.some_ne_none _ hnone
      · exfalso
        rw [make_gaussian_pdt_eq gexp mu sigma hs] at hnone
        by_cases hnil : pdtSupport mu sigma = []
        · rw [if_neg (by rintro ⟨-, hne⟩; exact hne hnil)] at hnone
          exact Option.some_ne_none _ hnone
        · have hpos := pdtRawSum_pos gexp hexp mu sigma hnil
          rw [if_neg (by rintro ⟨h0, -⟩; exact absurd h0 (ne_of_gt hpos))]
            at hnone
          exact Option.some_ne_none _ hnone
    · rintro ⟨hs, hmu⟩
      subst hs
      apply make_gaussian_pdt_zero_sigma
      rw [pdtSupport_def, Ne, pyRange_eq_nil, not_le]
      have hc : ⌈tau * (0 : ℚ)⌉ = 0 := by norm_num
      omega
  · intro hs
    have hne := pdtSupport_ne_nil mu sigma hs
    have hpos := pdtRawSum_pos gexp hexp mu sigma hne
    have hmk := make_gaussian_pdt_eq gexp mu sigma (ne_of_gt hs)
    rw [if_neg (by rintro ⟨h0, -⟩; exact absurd h0 (ne_of_gt hpos))] at hmk
    refine ⟨_, hmk, ?_⟩
    simpa [ne_eq, List.map_eq_nil_iff] using hne

/-- C4 witness: the amended claim instantiated at `gexp = const 1`,
`mu = 0`, `sigma = 1`. -/
theorem claim_C4_witness :
    (make_gaussian_pdt (fun _ => (1 : ℚ)) 0 1 = none ↔
      (1 : ℚ) = 0 ∧ ⌊(0 : ℚ)⌋ < ⌈(0 : ℚ)⌉) ∧
    (0 < (1 : ℚ) → ∃ pdt, make_gaussian_pdt (fun _ => (1 : ℚ)) 0 1 = some pdt ∧
      pdt ≠ []) :=
  claim_C4_amended (fun _ => 1) (fun _ => one_pos) 0 1

/-! Definitions for the chi-square bucket-merging loop of the method on line 168 of saga.py. -/

/-- One inner `while` loop of `UnivariateSamples.chisquare` at position `z`:
while `z < len(exp) - 1 and exp[z] < t`, do `obs[z+1] += obs[z]`,
`exp[z+1] += exp[z]`, `obs.pop(z)`, `exp.pop(z)`.  (Python would raise an
`IndexError` if `obs` were shorter than `exp`; in saga.py the two lists are
always parallel, and the total `set`/`getD`/`eraseIdx` operations agree with
Python there.) -/
def innerLoop (t : ℚ) (z : ℕ) (obs : List ℤ) (exps : List ℚ) :
    List ℤ × List ℚ :=
  if h : z < exps.length - 1 ∧ exps.getD z 0 < t then
    innerLoop t z
      ((obs.set (z + 1) (obs.getD (z + 1) 0 + obs.getD z 0)).eraseIdx z)
      ((exps.set (z + 1) (exps.getD (z + 1) 0 + exps.getD z 0)).eraseIdx z)
  else (obs, exps)
termination_by exps.length
decreasing_by
  rw [List.length_eraseIdx]
  have hz : z < exps.length := by omega
  simp [List.length_set, hz]
  omega

theorem innerLoop_snd_length_le (t : ℚ) (z : ℕ) (obs : List ℤ)
    (exps : List ℚ) : (innerLoop t z obs exps).2.length ≤ exps.length := by
  induction obs, exps using innerLoop.induct t z with
  | case1 obs exps h ih =>
    rw [innerLoop, dif_pos h]
    refine le_trans ih ?_
    rw [List.length_eraseIdx]
    have hz : z < exps.length := by omega
    simp [List.length_set, hz]
  | case2 obs exps h =>
    rw [innerLoop, dif_neg h]

/-- The outer `while(1)` loop of `UnivariateSamples.chisquare`: starting at
`z`, run the inner merging loop, then advance `z`, until
`z >= len(exp) - 1`. -/
def outerLoop (t : ℚ) (z : ℕ) (obs : List ℤ) (exps : List ℚ) :
    List ℤ × List ℚ :=
  if exps.length - 1 ≤ z then (obs, exps)
  else
    outerLoop t (z + 1) (innerLoop t z obs exps).1 (innerLoop t z obs exps).2
termination_by exps.length - z
decreasing_by
  have := innerLoop_snd_length_le t z obs exps
  omega

/-- Specification-side sweep, written from the spec's words: sweeping the
bucket list left to right, merge each bucket into its right neighbour
(summing both observed and expected values) while the bucket's expected
value is below `t`; the rightmost bucket is never merged during the
sweep. -/
def specSweep (t : ℚ) : List ℤ → List ℚ → List ℤ × List ℚ
  | o :: o' :: os, e :: e' :: es =>
    if e < t then specSweep t ((o' + o) :: os) ((e' + e) :: es)
    else
      ((o :: (specSweep t (o' :: os) (e' :: es)).1),
       (e :: (specSweep t (o' :: os) (e' :: es)).2))
  | os, es => (os, es)
termination_by os es => es.length

/-- The maximal run of merges the inner loop performs at one position:
merge the head bucket into its right neighbour while the head's expected
value is below `t`. -/
def cascade (t : ℚ) : List ℤ → List ℚ → List ℤ × List ℚ
  | o :: o' :: os, e :: e' :: es =>
    if e < t then cascade t ((o' + o) :: os) ((e' + e) :: es)
    else (o :: o' :: os, e :: e' :: es)
  | os, es => (os, es)
termination_by os es => es.length

theorem getD_append_add {α : Type} (l₁ l₂ : List α) (k : ℕ) (d : α) :
    (l₁ ++ l₂).getD (l₁.length + k) d = l₂.getD k d := by
  induction l₁ with
  | nil => simp
  | cons x xs ih =>
    rw [List.cons_append, show (x :: xs).length + k = (xs.length + k) + 1 by
      rw [List.length_cons]; omega, List.getD_cons_succ, ih]

theorem set_append_add {α : Type} (l₁ l₂ : List α) (k : ℕ) (v : α) :
    (l₁ ++ l₂).set (l₁.length + k) v = l₁ ++ l₂.set k v := by
  induction l₁ with
  | nil => simp
  | cons x xs ih =>
    rw [List.cons_append, show (x :: xs).length + k = (xs.length + k) + 1 by
      rw [List.length_cons]; omega, List.set_cons_succ, ih, List.cons_append]

theorem eraseIdx_append_len {α : Type} (l₁ l₂ : List α) :
    (l₁ ++ l₂).eraseIdx l₁.length = l₁ ++ l₂.eraseIdx 0 := by
  induction l₁ with
  | nil => simp
  | cons x xs ih =>
    rw [List.cons_append, List.length_cons, List.eraseIdx_cons_succ, ih,
      List.cons_append]

theorem cascade_snd_length_le (t : ℚ) :
    ∀ (so : List ℤ) (se : List ℚ), (cascade t so se).2.length ≤ se.length := by
  intro so se
  induction so, se using cascade.induct t with
  | case1 o o' os e e' es h ih =>
    rw [cascade, if_pos h]
    exact le_trans ih (by simp)
  | case2 o o' os e e' es h =>
    rw [cascade, if_neg h]
  | case3 os es h =>
    rw [cascade.eq_def]
    split
    · exact (h _ _ _ _ _ _ rfl rfl).elim
    · simp

theorem cascade_length_eq (t : ℚ) :
    ∀ (so : List ℤ) (se : List ℚ), so.length = se.length →
      (cascade t so se).1.length = (cascade t so se).2.length := by
  intro so se hlen
  induction so, se using cascade.induct t with
  | case1 o o' os e e' es h ih =>
    rw [cascade, if_pos h]
    exact ih (by simpa using hlen)
  | case2 o o' os e e' es h =>
    rw [cascade, if_neg h]
    simpa using hlen
  | case3 os es h =>
    rw [cascade.eq_def]
    split
    · exact (h _ _ _ _ _ _ rfl rfl).elim
    · simpa using hlen

/-- The inner loop at position `z = pre.length` leaves the prefix `pre`
untouched and performs exactly the head-merging `cascade` on the suffix. -/
theorem innerLoop_append (t : ℚ) (pre_o : List ℤ) (pre_e : List ℚ)
    (hpre : pre_o.length = pre_e.length) :
    ∀ (n : ℕ) (so : List ℤ) (se : List ℚ), se.length ≤ n →
      so.length = se.length →
      innerLoop t pre_e.length (pre_o ++ so) (pre_e ++ se) =
        (pre_o ++ (cascade t so se).1, pre_e ++ (cascade t so se).2) := by
  intro n
  induction n with
  | zero =>
    intro so se hle hlen
    have hse : se = [] := List.length_eq_zero.mp (by omega)
    have hso : so = [] := List.length_eq_zero.mp (by omega)
    subst hse hso
    rw [innerLoop, dif_neg (by
      rintro ⟨h1, -⟩
      rw [List.length_append] at h1
      simp only [List.length_nil] at h1
      omega)]
    simp [cascade.eq_def]
  | succ n ih =>
    intro so se hle hlen
    match so, se with
    | [], [] =>
      rw [innerLoop, dif_neg (by
        rintro ⟨h1, -⟩
        rw [List.length_append] at h1
        simp only [List.length_nil] at h1
        omega)]
      simp [cascade.eq_def]
    | [], e :: es => simp at hlen
    | o :: os, [] => simp at hlen
    | [o], [e] =>
      rw [innerLoop, dif_neg (by
        rintro ⟨h1, -⟩
        rw [List.length_append] at h1
        simp only [List.length_cons, List.length_nil] at h1
        omega)]
      rw [show cascade t [o] [e] = ([o], [e]) by simp [cascade.eq_def]]
    | o :: o' :: os, [e] => simp at hlen
    | [o], e :: e' :: es => simp at hlen
    | o :: o' :: os, e :: e' :: es =>
      by_cases ht : e < t
      · rw [innerLoop, dif_pos (by
          constructor
          · simp only [List.length_append, List.length_cons]
            omega
          · rw [show pre_e.length = pre_e.length + 0 by omega, getD_append_add]
            simpa using ht)]
        have hobs : ((pre_o ++ o :: o' :: os).set (pre_e.length + 1)
            ((pre_o ++ o :: o' :: os).getD (pre_e.length + 1) 0 +
              (pre_o ++ o :: o' :: os).getD pre_e.length 0)).eraseIdx
              pre_e.length = pre_o ++ (o' + o) :: os := by
          rw [← hpre]
          rw [show pre_o.length + 1 = pre_o.length + 1 by rfl]
          rw [show (pre_o ++ o :: o' :: os).getD (pre_o.length + 1) 0 =
            (o :: o' :: os).getD 1 0 from getD_append_add _ _ 1 0]
          rw [show (pre_o ++ o :: o' :: os).getD pre_o.length 0 =
            (o :: o' :: os).getD 0 0 by
            rw [show pre_o.length = pre_o.length + 0 by omega]
            exact getD_append_add _ _ 0 0]
          rw [set_append_add pre_o (o :: o' :: os) 1, eraseIdx_append_len]
          rfl
        have hexps : ((pre_e ++ e :: e' :: es).set (pre_e.length + 1)
            ((pre_e ++ e :: e' :: es).getD (pre_e.length + 1) 0 +
              (pre_e ++ e :: e' :: es).getD pre_e.length 0)).eraseIdx
              pre_e.length = pre_e ++ (e' + e) :: es := by
          rw [show (pre_e ++ e :: e' :: es).getD (pre_e.length + 1) 0 =
            (e :: e' :: es).getD 1 0 from getD_append_add _ _ 1 0]
          rw [show (pre_e ++ e :: e' :: es).getD pre_e.length 0 =
            (e :: e' :: es).getD 0 0 by
            rw [show pre_e.length = pre_e.length + 0 by omega]
            exact getD_append_add _ _ 0 0]
          rw [set_append_add pre_e (e :: e' :: es) 1, eraseIdx_append_len]
          rfl
        rw [hobs, hexps]
        rw [ih ((o' + o) :: os) ((e' + e) :: es) (by simp at hle ⊢; omega)
          (by simp at hlen ⊢; omega)]
        rw [show cascade t (o :: o' :: os) (e :: e' :: es) =
          cascade t ((o' + o) :: os) ((e' + e) :: es) by
          rw [cascade, if_pos ht]]
      · rw [innerLoop, dif_neg (by
          rintro ⟨-, habs⟩
          rw [show pre_e.length = pre_e.length + 0 by omega,
            getD_append_add] at habs
          simp at habs
          exact ht habs)]
        rw [show cascade t (o :: o' :: os) (e :: e' :: es) =
          (o :: o' :: os, e :: e' :: es) by rw [cascade, if_neg ht]]

theorem cascade_snd_ne_nil (t : ℚ) :
    ∀ (so : List ℤ) (se : List ℚ), se ≠ [] → (cascade t so se).2 ≠ [] := by
  intro so se hne
  induction so, se using cascade.induct t with
  | case1 o o' os e e' es h ih =>
    rw [cascade, if_pos h]
    exact ih (by simp)
  | case2 o o' os e e' es h =>
    rw [cascade, if_neg h]
    simp
  | case3 os es h =>
    rw [cascade.eq_def]
    split
    · exact (h _ _ _ _ _ _ rfl rfl).elim
    · simpa using hne

/-- The sweep `specSweep` factors through `cascade`: it performs the head cascade and
then proceeds structurally on the tail. -/
theorem specSweep_cascade (t : ℚ) :
    ∀ (n : ℕ) (so : List ℤ) (se : List ℚ), se.length ≤ n →
      so.length = se.length →
      ∀ (a : ℤ) (c1 : List ℤ) (b : ℚ) (c2 : List ℚ),
        cascade t so se = (a :: c1, b :: c2) →
        specSweep t so se =
          (a :: (specSweep t c1 c2).1, b :: (specSweep t c1 c2).2) := by
  intro n
  induction n with
  | zero =>
    intro so se hle hlen a c1 b c2 hc
    have hse : se = [] := List.length_eq_zero.mp (by omega)
    have hso : so = [] := List.length_eq_zero.mp (by omega)
    subst hse hso
    rw [show cascade t [] [] = (([] : List ℤ), ([] : List ℚ)) by
      simp [cascade.eq_def]] at hc
    simp at hc
  | succ n ih =>
    intro so se hle hlen a c1 b c2 hc
    match so, se with
    | [], [] =>
      rw [show cascade t [] [] = (([] : List ℤ), ([] : List ℚ)) by
        simp [cascade.eq_def]] at hc
      simp at hc
    | [], e :: es => simp at hlen
    | o :: os, [] => simp at hlen
    | [o], [e] =>
      rw [show cascade t [o] [e] = ([o], [e]) by simp [cascade.eq_def]] at hc
      simp only [Prod.mk.injEq, List.cons.injEq] at hc
      obtain ⟨⟨rfl, rfl⟩, rfl, rfl⟩ := hc
      simp [specSweep.eq_def]
    | o :: o' :: os, [e] => simp at hlen
    | [o], e :: e' :: es => simp at hlen
    | o :: o' :: os, e :: e' :: es =>
      by_cases ht : e < t
      · rw [show cascade t (o :: o' :: os) (e :: e' :: es) =
          cascade t ((o' + o) :: os) ((e' + e) :: es) by
          rw [cascade, if_pos ht]] at hc
        rw [show specSweep t (o :: o' :: os) (e :: e' :: es) =
          specSweep t ((o' + o) :: os) ((e' + e) :: es) by
          rw [specSweep, if_pos ht]]
        exact ih _ _ (by simp at hle ⊢; omega) (by simp at hlen ⊢; omega)
          a c1 b c2 hc
      · rw [show cascade t (o :: o' :: os) (e :: e' :: es) =
          (o :: o' :: os, e :: e' :: es) by rw [cascade, if_neg ht]] at hc
        simp only [Prod.mk.injEq, List.cons.injEq] at hc
        obtain ⟨⟨rfl, rfl⟩, rfl, rfl⟩ := hc
        rw [specSweep, if_neg ht]

/-- The outer loop from index `z = pre.length` never touches the prefix and
performs the specification sweep on the suffix. -/
theorem outerLoop_append (t : ℚ) :
    ∀ (n : ℕ) (pre_o : List ℤ) (pre_e : List ℚ) (so : List ℤ)
      (se : List ℚ), se.length ≤ n → pre_o.length = pre_e.length →
      so.length = se.length →
      outerLoop t pre_e.length (pre_o ++ so) (pre_e ++ se) =
        (pre_o ++ (specSweep t so se).1, pre_e ++ (specSweep t so se).2) := by
  intro n
  induction n with
  | zero =>
    intro pre_o pre_e so se hle hpre hlen
    have hse : se = [] := List.length_eq_zero.mp (by omega)
    have hso : so = [] := List.length_eq_zero.mp (by omega)
    subst hse hso
    rw [outerLoop, if_pos (by simp)]
    simp [specSweep.eq_def]
  | succ n ih =>
    intro pre_o pre_e so se hle hpre hlen
    match so, se with
    | [], [] =>
      rw [outerLoop, if_pos (by simp)]
      simp [specSweep.eq_def]
    | [], e :: es => simp at hlen
    | o :: os, [] => simp at hlen
    | [o], [e] =>
      rw [outerLoop, if_pos (by simp)]
      simp [specSweep.eq_def]
    | o :: o' :: os, [e] => simp at hlen
    | [o], e :: e' :: es => simp at hlen
    | o :: o' :: os, e :: e' :: es =>
      rw [outerLoop, if_neg (by
        simp only [List.length_append, List.length_cons]
        omega)]
      rw [innerLoop_append t pre_o pre_e hpre (n + 1) _ _ hle hlen]
      have hc2 : (cascade t (o :: o' :: os) (e :: e' :: es)).2 ≠ [] :=
        cascade_snd_ne_nil t _ _ (by simp)
      obtain ⟨b, c2, hbc2⟩ := List.exists_cons_of_ne_nil hc2
      have hclen := cascade_length_eq t (o :: o' :: os) (e :: e' :: es) hlen
      have hc1 : (cascade t (o :: o' :: os) (e :: e' :: es)).1 ≠ [] := by
        rw [Ne, ← List.length_eq_zero, hclen, List.length_eq_zero]
        exact hc2
      obtain ⟨a, c1, hac1⟩ := List.exists_cons_of_ne_nil hc1
      have hc : cascade t (o :: o' :: os) (e :: e' :: es) = (a :: c1, b :: c2) := by
        rw [Prod.ext_iff]
        exact ⟨hac1, hbc2⟩
      rw [hc]
      have hstep : pre_o ++ a :: c1 = (pre_o ++ [a]) ++ c1 := by simp
      have hstep2 : pre_e ++ b :: c2 = (pre_e ++ [b]) ++ c2 := by simp
      have hz : pre_e.length + 1 = (pre_e ++ [b]).length := by simp
      rw [hstep, hstep2, hz]
      have hlc2 : c2.length ≤ n := by
        have := cascade_snd_length_le t (o :: o' :: os) (e :: e' :: es)
        rw [hc] at this
        simp at this hle
        omega
      have hlc12 : c1.length = c2.length := by
        rw [hc] at hclen
        simpa using hclen
      rw [ih (pre_o ++ [a]) (pre_e ++ [b]) c1 c2 hlc2 (by simp [hpre]) hlc12]
      rw [specSweep_cascade t (n + 1) _ _ hle hlen a c1 b c2 hc]
      simp

/-- The Python merging loops are the specification sweep. -/
theorem outerLoop_eq_specSweep (t : ℚ) (obs : List ℤ) (exps : List ℚ)
    (hlen : obs.length = exps.length) :
    outerLoop t 0 obs exps = specSweep t obs exps := by
  have h := outerLoop_append t exps.length ([] : List ℤ) ([] : List ℚ)
    obs exps le_rfl rfl hlen
  simpa using h

/-- Python's `l[-2] += l[-1]; l.pop(-1)` on a list of length at least 2. -/
def mergeLast2 {α : Type} [Add α] (d : α) (l : List α) : List α :=
  l.take (l.length - 2) ++ [l.getD (l.length - 2) d + l.getD (l.length - 1) d]

/-- The Pearson statistic `sum((obs - exp)**2 / exp)` computed by
`scipy.stats.chisquare(obs, f_exp=exp)` on integer observed/expected
counts. -/
def pearsonStat (obs exps : List ℤ) : ℚ :=
  (List.zipWith (fun (a e : ℤ) => (((a : ℚ) - (e : ℚ)) ^ 2) / (e : ℚ))
    obs exps).sum

/-- The tail of `UnivariateSamples.chisquare` after the merging loops:
round each expected probability times `n` to an integer expected count
(Python `round`, half to even), then return `scipy.stats.chisquare`'s
Pearson statistic and its p-value against a chi-square distribution with
`len(obs) - 1` degrees of freedom (`scipy`'s default `ddof = 0`). -/
def chisquareTail (chi2cdf : ℚ → ℚ → ℚ) (nsamples : ℕ) (obs2 : List ℤ)
    (exps2 : List ℚ) : ℚ × ℚ :=
  (pearsonStat obs2 (exps2.map (fun prob => pyRound (prob * (nsamples : ℚ)))),
   1 - chi2cdf
     (pearsonStat obs2 (exps2.map (fun prob => pyRound (prob * (nsamples : ℚ)))))
     ((obs2.length : ℚ) - 1))

/-- The value-list part of `UnivariateSamples.chisquare` (saga.py lines
179-199), translated from the source: run the merging loops (`outerLoop`)
with threshold `chi2_bucket / nsamples` from `z = 0`, then merge the two
rightmost buckets unconditionally (`obs[-2] += obs[-1]`, which raises
`IndexError` when fewer than two buckets remain), then round and run the
Pearson test.  (The mutation of the local `exp_histogram` dict on lines
196-197 of saga.py is omitted: that dict is not read again, so the mutation
cannot affect the returned value.) -/
def chisquareRun (chi2cdf : ℚ → ℚ → ℚ) (nsamples : ℕ) (obs : List ℤ)
    (exps : List ℚ) : Option (ℚ × ℚ) :=
  if (outerLoop (chi2_bucket / (nsamples : ℚ)) 0 obs exps).1.length < 2 ∨
      (outerLoop (chi2_bucket / (nsamples : ℚ)) 0 obs exps).2.length < 2 then
    none
  else
    some (chisquareTail chi2cdf nsamples
      (mergeLast2 0 (outerLoop (chi2_bucket / (nsamples : ℚ)) 0 obs exps).1)
      (mergeLast2 0 (outerLoop (chi2_bucket / (nsamples : ℚ)) 0 obs exps).2))

/-- Specification-side chi-square computation, written from the spec's
words: sweep the bucket list left to right merging underfull buckets
(`specSweep`), merge the two rightmost remaining buckets unconditionally,
round expected probabilities times `n` to integer counts, and run a Pearson
goodness-of-fit test with `#buckets - 1` degrees of freedom. -/
def specChisquare (chi2cdf : ℚ → ℚ → ℚ) (nsamples : ℕ) (obs : List ℤ)
    (exps : List ℚ) : Option (ℚ × ℚ) :=
  if (specSweep (chi2_bucket / (nsamples : ℚ)) obs exps).1.length < 2 ∨
      (specSweep (chi2_bucket / (nsamples : ℚ)) obs exps).2.length < 2 then
    none
  else
    some (chisquareTail chi2cdf nsamples
      (mergeLast2 0 (specSweep (chi2_bucket / (nsamples : ℚ)) obs exps).1)
      (mergeLast2 0 (specSweep (chi2_bucket / (nsamples : ℚ)) obs exps).2))

/-- C5: the univariate chi-square computation follows the specified
algorithm exactly: a left-to-right sweep merging each bucket into its right
neighbour (summing observed and expected) while its expected value is below
`chi2_bucket / n`, an unconditional merge of the two rightmost buckets, a
rounding of expected probabilities times `n` to integer counts, and a
Pearson test of observed versus expected counts with `#buckets - 1` degrees
of freedom, returning that statistic and p-value. -/
theorem claim_C5 (chi2cdf : ℚ → ℚ → ℚ) (nsamples : ℕ) (obs : List ℤ)
    (exps : List ℚ) (hlen : obs.length = exps.length) :
    chisquareRun chi2cdf nsamples obs exps =
      specChisquare chi2cdf nsamples obs exps := by
  unfold chisquareRun specChisquare
  rw [outerLoop_eq_specSweep _ obs exps hlen]

/-- C5 witness: a concrete instantiation of the pipeline equality. -/
theorem claim_C5_witness :
    chisquareRun (fun _ _ => 0) 20 [1, 19] [1/2, 1/2] =
      specChisquare (fun _ _ => 0) 20 [1, 19] [1/2, 1/2] :=
  claim_C5 (fun _ _ => 0) 20 [1, 19] [1/2, 1/2] (by simp)

/-! Definitions for the univariate histogram of saga.py lines 112-129. -/

/-- Python's `histogram[z] += 1` on the association-list model of the Python dict
(the key is present exactly once, as the dict is initialized over the
range). -/
def bumpKey : List (ℤ × ℕ) → ℤ → List (ℤ × ℕ)
  | [], _ => []
  | p :: ps, z => if p.1 = z then (p.1, p.2 + 1) :: ps else p :: bumpKey ps z

/-- The sample loop of `UnivariateSamples.__init__`: for each sample, if it
is not a histogram key count it as an outlier, otherwise increment its
histogram cell. -/
def fillHist : List ℤ → List (ℤ × ℕ) → ℕ → List (ℤ × ℕ) × ℕ
  | [], h, outl => (h, outl)
  | z :: zs, h, outl =>
    if (h.map Prod.fst).contains z then fillHist zs (bumpKey h z) outl
    else fillHist zs h (outl + 1)

/-- The histogram initialized to `0` over the PDT support. -/
def initHist (mu sigma : ℚ) : List (ℤ × ℕ) :=
  (pdtSupport mu sigma).map (fun z => (z, 0))

/-- The filled histogram of `UnivariateSamples.__init__`. -/
def histogramOf (mu sigma : ℚ) (samples : List ℤ) : List (ℤ × ℕ) :=
  (fillHist samples (initHist mu sigma) 0).1

/-- The outlier counter of `UnivariateSamples.__init__`. -/
def outlierCount (mu sigma : ℚ) (samples : List ℤ) : ℕ :=
  (fillHist samples (initHist mu sigma) 0).2

/-- Python's `sum(list_samples) / self.nsamples`. -/
def sampleMean (samples : List ℤ) : ℚ :=
  (samples.map (fun z => (z : ℚ))).sum / (samples.length : ℚ)

/-- The call `scipy.stats.moment(list_samples, 2)`: the second central moment. -/
def moment2 (samples : List ℤ) : ℚ :=
  (samples.map (fun z => ((z : ℚ) - sampleMean samples) ^ 2)).sum /
    (samples.length : ℚ)

/-- The chi-square step of `UnivariateSamples`: build the expected table
with `make_gaussian_pdt` and run the merging/rounding/Pearson pipeline on
the two value lists. -/
def univChisquare (o : Oracles) (mu sigma : ℚ) (nsamples : ℕ)
    (histogram : List (ℤ × ℕ)) : Option (ℚ × ℚ) := do
  let exp_histogram ← make_gaussian_pdt o.gexp mu sigma
  chisquareRun o.chi2cdf nsamples (histogram.map (fun p => (p.2 : ℤ)))
    (exp_histogram.map Prod.snd)

/-- The fields of a constructed `UnivariateSamples` object. -/
structure UnivariateSamples where
  exp_mu : ℚ
  exp_sigma : ℚ
  nsamples : ℕ
  histogram : List (ℤ × ℕ)
  outlier : ℕ
  mean : ℚ
  variance : ℚ
  skewness : ℚ
  kurtosis : ℚ
  stdev : ℚ
  chi2_stat : ℚ
  chi2_pvalue : ℚ
  is_valid : Bool
deriving DecidableEq

/-- The constructor `UnivariateSamples.__init__(mu, sigma, list_samples)`: histogram and
outlier count over the PDT support, empirical moments (`skew`, `kurtosis`
and `sqrt` are scipy/math externals, hence oracles), chi-square statistic
and p-value, and the final verdict
`is_valid = (chi2_pvalue > pmin) & (outlier == 0)`.  An empty sample list
raises `ZeroDivisionError` at `self.mean`; a failing chi-square step
propagates its exception. -/
def mkUnivariateSamples (o : Oracles) (mu sigma : ℚ) (samples : List ℤ) :
    Option UnivariateSamples :=
  if samples.isEmpty then none
  else do
    let sp ← univChisquare o mu sigma samples.length
      (histogramOf mu sigma samples)
    some {
      exp_mu := mu
      exp_sigma := sigma
      nsamples := samples.length
      histogram := histogramOf mu sigma samples
      outlier := outlierCount mu sigma samples
      mean := sampleMean samples
      variance := moment2 samples
      skewness := o.skewO samples
      kurtosis := o.kurtO samples
      stdev := o.sqrtO (moment2 samples)
      chi2_stat := sp.1
      chi2_pvalue := sp.2
      is_valid := decide (pmin < sp.2) &&
        decide (outlierCount mu sigma samples = 0)
    }

theorem bumpKey_keys (h : List (ℤ × ℕ)) (z : ℤ) :
    (bumpKey h z).map Prod.fst = h.map Prod.fst := by
  induction h with
  | nil => rfl
  | cons p ps ih =>
    rw [bumpKey]
    by_cases hp : p.1 = z
    · rw [if_pos hp]
      simp
    · rw [if_neg hp]
      simp [ih]

theorem bumpKey_sum (h : List (ℤ × ℕ)) (z : ℤ)
    (hz : z ∈ h.map Prod.fst) :
    ((bumpKey h z).map Prod.snd).sum = (h.map Prod.snd).sum + 1 := by
  induction h with
  | nil => simp at hz
  | cons p ps ih =>
    rw [bumpKey]
    by_cases hp : p.1 = z
    · rw [if_pos hp]
      simp
      omega
    · rw [if_neg hp]
      have hz' : z ∈ ps.map Prod.fst := by
        rcases List.mem_map.mp hz with ⟨q, hq, hqz⟩
        rcases List.mem_cons.mp hq with rfl | hq'
        · exact absurd hqz hp
        · exact List.mem_map.mpr ⟨q, hq', hqz⟩
      simp [ih hz']
      omega

theorem fillHist_keys (zs : List ℤ) :
    ∀ (h : List (ℤ × ℕ)) (outl : ℕ),
      (fillHist zs h outl).1.map Prod.fst = h.map Prod.fst := by
  induction zs with
  | nil => intro h outl; rfl
  | cons z zs ih =>
    intro h outl
    rw [fillHist]
    by_cases hc : (h.map Prod.fst).contains z
    · rw [if_pos hc, ih, bumpKey_keys]
    · rw [if_neg hc, ih]

theorem fillHist_conserve (zs : List ℤ) :
    ∀ (h : List (ℤ × ℕ)) (outl : ℕ),
      ((fillHist zs h outl).1.map Prod.snd).sum + (fillHist zs h outl).2 =
        (h.map Prod.snd).sum + outl + zs.length := by
  induction zs with
  | nil => intro h outl; rfl
  | cons z zs ih =>
    intro h outl
    rw [fillHist]
    by_cases hc : (h.map Prod.fst).contains z
    · rw [if_pos hc, ih]
      have hz : z ∈ h.map Prod.fst := by
        simpa using hc
      rw [bumpKey_sum h z hz]
      simp
      omega
    · rw [if_neg hc, ih]
      simp
      omega

theorem fillHist_outlier (zs : List ℤ) :
    ∀ (h : List (ℤ × ℕ)) (outl : ℕ),
      (fillHist zs h outl).2 =
        outl + zs.countP (fun z => !((h.map Prod.fst).contains z)) := by
  induction zs with
  | nil => intro h outl; simp [fillHist]
  | cons z zs ih =>
    intro h outl
    rw [fillHist]
    by_cases hc : (h.map Prod.fst).contains z
    · rw [if_pos hc, ih, bumpKey_keys]
      rw [List.countP_cons_of_neg _ _ (by rw [hc]; simp)]
    · rw [if_neg hc, ih]
      have hcf : (h.map Prod.fst).contains z = false :=
        Bool.eq_false_iff.mpr hc
      rw [List.countP_cons_of_pos _ _ (by rw [hcf]; simp)]
      omega

theorem initHist_keys (mu sigma : ℚ) :
    (initHist mu sigma).map Prod.fst = pdtSupport mu sigma := by
  unfold initHist
  rw [List.map_map]
  simp [Function.comp_def]

theorem mapM_gaussian_keys (gexp : ℚ → ℚ) (mu sigma : ℚ) :
    ∀ (keys : List ℤ) (entries : List (ℤ × ℚ)),
      keys.mapM (fun (z : ℤ) =>
        (gaussianE gexp ((z : ℤ) : ℚ) mu sigma).map
          (fun v => ((z, v) : ℤ × ℚ))) = some entries →
      entries.map Prod.fst = keys := by
  intro keys
  induction keys with
  | nil =>
    intro entries h
    simp only [List.mapM_nil, pure, Option.some.injEq] at h
    subst h
    rfl
  | cons k ks ih =>
    intro entries h
    rw [List.mapM_cons] at h
    cases hg : gaussianE gexp ((k : ℤ) : ℚ) mu sigma with
    | none => rw [hg] at h; simp at h
    | some v =>
      rw [hg] at h
      cases hm : ks.mapM (fun (z : ℤ) =>
          (gaussianE gexp ((z : ℤ) : ℚ) mu sigma).map
            (fun v => ((z, v) : ℤ × ℚ))) with
      | none => rw [hm] at h; simp at h
      | some rest =>
        rw [hm] at h
        simp at h
        subst h
        simp [ih rest hm]

theorem make_gaussian_pdt_keys (gexp : ℚ → ℚ) (mu sigma : ℚ)
    (pdt : List (ℤ × ℚ)) (h : make_gaussian_pdt gexp mu sigma = some pdt) :
    pdt.map Prod.fst = pdtSupport mu sigma := by
  unfold make_gaussian_pdt at h
  cases hm : (pdtSupport mu sigma).mapM (fun (z : ℤ) =>
      (gaussianE gexp ((z : ℤ) : ℚ) mu sigma).map
        (fun v => ((z, v) : ℤ × ℚ))) with
  | none => rw [hm] at h; simp at h
  | some entries =>
    rw [hm] at h
    simp only [Option.bind_eq_bind, Option.some_bind] at h
    split at h
    · simp at h
    · simp only [Option.some.injEq] at h
      subst h
      rw [List.map_map]
      have : (Prod.fst ∘ fun p : ℤ × ℚ =>
          (p.1, p.2 / (entries.map Prod.snd).sum)) = Prod.fst := rfl
      rw [this]
      exact mapM_gaussian_keys gexp mu sigma _ entries hm

theorem mkUnivariateSamples_inv (o : Oracles) (mu sigma : ℚ)
    (samples : List ℤ) (u : UnivariateSamples)
    (h : mkUnivariateSamples o mu sigma samples = some u) :
    u.outlier = outlierCount mu sigma samples ∧
    u.histogram = histogramOf mu sigma samples ∧
    u.nsamples = samples.length ∧
    u.is_valid = (decide (pmin < u.chi2_pvalue) &&
      decide (outlierCount mu sigma samples = 0)) := by
  unfold mkUnivariateSamples at h
  by_cases he : samples.isEmpty
  · rw [if_pos he] at h
    simp at h
  · rw [if_neg he] at h
    cases hchi : univChisquare o mu sigma samples.length
        (histogramOf mu sigma samples) with
    | none => rw [hchi] at h; simp at h
    | some sp =>
      rw [hchi] at h
      simp only [Option.bind_eq_bind, Option.some_bind,
        Option.some.injEq] at h
      subst h
      exact ⟨rfl, rfl, rfl, rfl⟩

/-- C10: the `UnivariateSamples` constructor conserves samples between the
histogram and the outlier counter (counts plus outliers equal the number of
samples), and the histogram's key set is exactly the support
`[⌊mu⌋ - zmax, ⌈mu⌉ + zmax)` with `zmax = ⌈14 * sigma⌉`, the same key set
as any reference table `make_gaussian_pdt` returns. -/
theorem claim_C10 (gexp : ℚ → ℚ) (mu sigma : ℚ) (samples : List ℤ) :
    (∀ z : ℤ, z ∈ (histogramOf mu sigma samples).map Prod.fst ↔
      ⌊mu⌋ - ⌈(14 : ℚ) * sigma⌉ ≤ z ∧ z < ⌈mu⌉ + ⌈(14 : ℚ) * sigma⌉) ∧
    ((histogramOf mu sigma samples).map Prod.snd).sum +
      outlierCount mu sigma samples = samples.length ∧
    (∀ pdt, make_gaussian_pdt gexp mu sigma = some pdt →
      pdt.map Prod.fst = (histogramOf mu sigma samples).map Prod.fst) := by
  have hkeys : (histogramOf mu sigma samples).map Prod.fst =
      pdtSupport mu sigma := by
    unfold histogramOf
    rw [fillHist_keys, initHist_keys]
  refine ⟨?_, ?_, ?_⟩
  · intro z
    rw [show ((14 : ℚ)) = tau by norm_num [tau], hkeys, pdtSupport_def]
    exact pyRange_mem
  · have hc := fillHist_conserve samples (initHist mu sigma) 0
    have hinit : ((initHist mu sigma).map Prod.snd).sum = 0 := by
      unfold initHist
      rw [List.map_map]
      simp [Function.comp_def]
    unfold histogramOf outlierCount
    omega
  · intro pdt hpdt
    rw [hkeys]
    exact make_gaussian_pdt_keys gexp mu sigma pdt hpdt

/-- C10 witness: an instantiation of the key-set/conservation invariant. -/
theorem claim_C10_witness :
    (∀ z : ℤ, z ∈ (histogramOf 0 1 [0, 3, 100]).map Prod.fst ↔
      ⌊(0 : ℚ)⌋ - ⌈(14 : ℚ) * 1⌉ ≤ z ∧ z < ⌈(0 : ℚ)⌉ + ⌈(14 : ℚ) * 1⌉) ∧
    ((histogramOf 0 1 [0, 3, 100]).map Prod.snd).sum +
      outlierCount 0 1 [0, 3, 100] = ([0, 3, 100] : List ℤ).length ∧
    (∀ pdt, make_gaussian_pdt (fun _ => (1 : ℚ)) 0 1 = some pdt →
      pdt.map Prod.fst = (histogramOf 0 1 [0, 3, 100]).map Prod.fst) :=
  claim_C10 (fun _ => 1) 0 1 [0, 3, 100]

/-- C2: the univariate verdict is `is_valid = true` iff the chi-square
p-value exceeds `pmin = 0.001` and the outlier count is `0`; and a single
extra sample outside the support `[⌊mu⌋ - zmax, ⌈mu⌉ + zmax)`
(`zmax = ⌈14 * sigma⌉`) increments the outlier count by exactly 1 and
forces `is_valid = false` regardless of the chi-square p-value. -/
theorem claim_C2 (o : Oracles) (mu sigma : ℚ) (samples : List ℤ)
    (hs : 0 < sigma) (hne : samples ≠ []) :
    (∀ u, mkUnivariateSamples o mu sigma samples = some u →
      (u.is_valid = true ↔ pmin < u.chi2_pvalue ∧ u.outlier = 0)) ∧
    (∀ x : ℤ,
      x < ⌊mu⌋ - ⌈(14 : ℚ) * sigma⌉ ∨ ⌈mu⌉ + ⌈(14 : ℚ) * sigma⌉ ≤ x →
      outlierCount mu sigma (samples ++ [x]) =
        outlierCount mu sigma samples + 1 ∧
      ∀ u', mkUnivariateSamples o mu sigma (samples ++ [x]) = some u' →
        u'.is_valid = false) := by
  constructor
  · intro u hu
    obtain ⟨ho, -, -, hv⟩ := mkUnivariateSamples_inv o mu sigma samples u hu
    rw [hv, ho]
    simp
  · intro x hx
    rw [show ((14 : ℚ)) = tau by norm_num [tau]] at hx
    have hmem : x ∉ pdtSupport mu sigma := by
      intro hm
      rw [pdtSupport_def, pyRange_mem] at hm
      omega
    have hcontains : ((initHist mu sigma).map Prod.fst).contains x = false := by
      rw [initHist_keys]
      simpa using hmem
    have hcount : outlierCount mu sigma (samples ++ [x]) =
        outlierCount mu sigma samples + 1 := by
      unfold outlierCount
      rw [fillHist_outlier, fillHist_outlier, List.countP_append]
      rw [List.countP_cons_of_pos _ _ (by rw [hcontains]; simp)]
      simp
    refine ⟨hcount, ?_⟩
    intro u' hu'
    obtain ⟨-, -, -, hv⟩ :=
      mkUnivariateSamples_inv o mu sigma (samples ++ [x]) u' hu'
    rw [hv, hcount]
    simp

/-- C2 witness: instantiation at a concrete configuration. -/
theorem claim_C2_witness :
    (∀ u, mkUnivariateSamples
        ⟨fun _ => 1, fun _ _ => 0, fun _ => 0, fun _ => 0, fun _ => 0,
         fun _ => 0, fun _ => 0, fun _ => [], fun _ => ([], []), fun _ => 0⟩
        0 1 [0, 1] = some u →
      (u.is_valid = true ↔ pmin < u.chi2_pvalue ∧ u.outlier = 0)) ∧
    (∀ x : ℤ,
      x < ⌊(0 : ℚ)⌋ - ⌈(14 : ℚ) * 1⌉ ∨ ⌈(0 : ℚ)⌉ + ⌈(14 : ℚ) * 1⌉ ≤ x →
      outlierCount 0 1 ([0, 1] ++ [x]) = outlierCount 0 1 [0, 1] + 1 ∧
      ∀ u', mkUnivariateSamples
          ⟨fun _ => 1, fun _ _ => 0, fun _ => 0, fun _ => 0, fun _ => 0,
           fun _ => 0, fun _ => 0, fun _ => [], fun _ => ([], []), fun _ => 0⟩
          0 1 ([0, 1] ++ [x]) = some u' →
        u'.is_valid = false) :=
  claim_C2 _ 0 1 [0, 1] one_pos (by simp)

/-! Matrix helpers for the multivariate statistics. -/

/-- The number of columns of a row-major data matrix (pandas
`len(data.columns)`). -/
def ncols (data : List (List ℤ)) : ℕ := (data.headD []).length

/-- Column `i` of the data as integer samples (`self.data[i]`). -/
def colI (data : List (List ℤ)) (i : ℕ) : List ℤ :=
  data.map (fun r => r.getD i 0)

/-- Column `j` of the data as rationals. -/
def colQ (data : List (List ℤ)) (j : ℕ) : List ℚ :=
  data.map (fun r => ((r.getD j 0 : ℤ) : ℚ))

/-- The mean of column `j`. -/
def colMean (data : List (List ℤ)) (j : ℕ) : ℚ :=
  (colQ data j).sum / (data.length : ℚ)

/-- One entry of `numpy.cov(data.transpose())` (default `ddof = 1`):
`sum((x_i - mean_i) * (x_j - mean_j)) / (n - 1)`. -/
def covEntry (data : List (List ℤ)) (i j : ℕ) : ℚ :=
  (List.zipWith (fun a b => (a - colMean data i) * (b - colMean data j))
    (colQ data i) (colQ data j)).sum / ((data.length : ℚ) - 1)

/-- The matrix `numpy.cov(data.transpose())`: the `d × d` sample covariance matrix of
the columns. -/
def covMat (data : List (List ℤ)) : List (List ℚ) :=
  (List.range (ncols data)).map (fun i =>
    (List.range (ncols data)).map (fun j => covEntry data i j))

/-- Rows of a matrix of rationals transposed
(`numpy.transpose` / `.transpose()`). -/
def transposeM (A : List (List ℚ)) : List (List ℚ) :=
  (List.range (A.headD []).length).map (fun j => A.map (fun r => r.getD j 0))

/-- Row-major matrix product (`pandas.DataFrame.dot`). -/
def matMul (A B : List (List ℚ)) : List (List ℚ) :=
  A.map (fun r =>
    (List.range (B.headD []).length).map (fun j =>
      (List.zipWith (fun x br => x * br.getD j 0) r B).sum))

/-- The matrix `numpy.diag(L)`: the diagonal matrix with diagonal `L`. -/
def diagM (L : List ℚ) : List (List ℚ) :=
  (List.range L.length).map (fun i =>
    (List.range L.length).map (fun j => if i = j then L.getD i 0 else 0))

/-- Dot product of two vectors (`v.dot(w.transpose())` on 1-d data). -/
def dotProd (a b : List ℚ) : ℚ := (List.zipWith (fun x y => x * y) a b).sum

/-- The data matrix as rationals (`pandas.DataFrame(list_samples)`). -/
def dataQ (data : List (List ℤ)) : List (List ℚ) :=
  data.map (List.map (fun z => ((z : ℤ) : ℚ)))

/-- Mean of column `j` of a rational matrix. -/
def colMeanM (A : List (List ℚ)) (j : ℕ) : ℚ :=
  (A.map (fun r => r.getD j 0)).sum / (A.length : ℚ)

/-- Population variance (`ddof = 0`) of column `j` of a rational matrix. -/
def colPopVar (A : List (List ℚ)) (j : ℕ) : ℚ :=
  (A.map (fun r => (r.getD j 0 - colMeanM A j) ^ 2)).sum / (A.length : ℚ)

/-- Mean of the `k`-th powers of column `j`
(`mean(power(st, k), axis=0)`). -/
def colPowMean (A : List (List ℚ)) (k : ℕ) (j : ℕ) : ℚ :=
  (A.map (fun r => (r.getD j 0) ^ k)).sum / (A.length : ℚ)

/-! Definitions for the Doornik-Hansen test, saga.py lines 324-401. -/

/-- The matrix `R = corrcoef(data.transpose())`: the correlation matrix of the
columns, computed by the numpy external. -/
def dhR (o : Oracles) (data : List (List ℤ)) : List (List ℚ) :=
  o.corrcoefO (transposeM (dataQ data))

/-- The eigenvalue post-processing of `doornik_hansen`: eigenvalues of `R`
at most `1e-12` become `0`, the others become `1 / sqrt(L[i])`. -/
def dhL (o : Oracles) (data : List (List ℤ)) : List ℚ :=
  (o.eighO (dhR o data)).1.map (fun l =>
    if l ≤ 1 / 1000000000000 then 0 else 1 / o.sqrtO l)

/-- The eigenvector matrix `V` of `eigh(R)`. -/
def dhV (o : Oracles) (data : List (List ℤ)) : List (List ℚ) :=
  (o.eighO (dhR o data)).2

/-- The matrix `Z`: each column standardized by its mean and population standard
deviation (`(data - means) / stddev`, `ddof = 0`). -/
def dhZ (o : Oracles) (data : List (List ℤ)) : List (List ℚ) :=
  (dataQ data).map (fun r =>
    (List.range (ncols data)).map (fun j =>
      (r.getD j 0 - colMeanM (dataQ data) j) /
        o.sqrtO (colPopVar (dataQ data) j)))

/-- The matrix `st = Z.dot(V).dot(diag(L)).dot(V.transpose())`: the sphericized
transform used for moment estimation. -/
def dhSt (o : Oracles) (data : List (List ℤ)) : List (List ℚ) :=
  matMul (matMul (matMul (dhZ o data) (dhV o data)) (diagM (dhL o data)))
    (transposeM (dhV o data))

/-- The vector `skew = mean(power(st, 3), axis=0)`. -/
def dhSkew (o : Oracles) (data : List (List ℤ)) : List ℚ :=
  (List.range (ncols data)).map (fun j => colPowMean (dhSt o data) 3 j)

/-- The vector `kurt = mean(power(st, 4), axis=0)`. -/
def dhKurt (o : Oracles) (data : List (List ℤ)) : List ℚ :=
  (List.range (ncols data)).map (fun j => colPowMean (dhSt o data) 4 j)

/-- The transformed skewness `z1` (Wilson-Hilferty-style log transform with
coefficients depending only on `n`). -/
def dhZ1 (o : Oracles) (data : List (List ℤ)) : List ℚ :=
  let n : ℚ := (data.length : ℚ)
  let n2 := n * n
  let b := 3 * (n2 + 27 * n - 70) * (n + 1) * (n + 3) /
    ((n - 2) * (n + 5) * (n + 7) * (n + 9))
  let w2 := -1 + o.sqrtO (2 * (b - 1))
  let d := 1 / o.sqrtO (o.logO (o.sqrtO w2))
  (dhSkew o data).map (fun s =>
    let y := s * o.sqrtO ((w2 - 1) * (n + 1) * (n + 3) / (12 * (n - 2)))
    d * o.logO (y + o.sqrtO (y * y + 1)))

/-- The transformed kurtosis `z2` (Fisher-Cornish cube-root transform). -/
def dhZ2 (o : Oracles) (data : List (List ℤ)) : List ℚ :=
  let n : ℚ := (data.length : ℚ)
  let n2 := n * n
  let d := (n - 3) * (n + 1) * (n2 + 15 * n - 4)
  let a := (n - 2) * (n + 5) * (n + 7) * (n2 + 27 * n - 70) / (6 * d)
  let c := (n - 7) * (n + 5) * (n + 7) * (n2 + 2 * n - 5) / (6 * d)
  let k := (n + 5) * (n + 7) * (n * n2 + 37 * n2 + 11 * n - 313) / (12 * d)
  List.zipWith (fun sk ku =>
    let al := a + sk ^ 2 * c
    let chi := (ku - 1 - sk ^ 2) * k * 2
    ((o.cbrtO (chi / (2 * al))) - 1 + 1 / (9 * al)) * o.sqrtO (9 * al))
    (dhSkew o data) (dhKurt o data)

/-- The excess kurtosis `kurt -= 3` applied before computing `AS`. -/
def dhKurt2 (o : Oracles) (data : List (List ℤ)) : List ℚ :=
  (dhKurt o data).map (fun ku => ku - 3)

/-- The statistic `DH = z1.dot(z1) + z2.dot(z2)`. -/
def dhDH (o : Oracles) (data : List (List ℤ)) : ℚ :=
  dotProd (dhZ1 o data) (dhZ1 o data) + dotProd (dhZ2 o data) (dhZ2 o data)

/-- The statistic `AS = n/6 * skew.dot(skew) + n/24 * kurt.dot(kurt)` (with `kurt` the
excess kurtosis at that point of the code). -/
def dhAS (o : Oracles) (data : List (List ℤ)) : ℚ :=
  (data.length : ℚ) / 6 * dotProd (dhSkew o data) (dhSkew o data) +
    (data.length : ℚ) / 24 * dotProd (dhKurt2 o data) (dhKurt2 o data)

/-- The function `doornik_hansen(data)` from saga.py: compute the correlation matrix
`R`, its eigendecomposition and the inverse-sqrt eigenvalue scaling; if
`matrix_rank(R) < p`, raise `ValueError` (the dimension-reduced data matrix
computed just before the `raise` is dead code: the exception always fires
in that branch, so the reduction is never applied); otherwise return the
omnibus statistics `DH`, `AS` and their p-values `PO = 1 - chi2.cdf(DH, 2p)`
and `PA = 1 - chi2.cdf(AS, 2p)`. -/
def doornik_hansen (o : Oracles) (data : List (List ℤ)) :
    Option (ℚ × ℚ × ℚ × ℚ) :=
  if o.rankO (dhR o data) < ncols data then none
  else
    some (dhDH o data, dhAS o data,
      1 - o.chi2cdf (dhDH o data) (2 * (ncols data : ℚ)),
      1 - o.chi2cdf (dhAS o data) (2 * (ncols data : ℚ)))

/-! Definitions for the covariance-diagonals test, saga.py lines 404-452. -/

/-- The final contents of cell `idx` of the `diagsum` array of `diagcov`:
the loop writes, for each `i` in `range(1, n0)`,
`diagsum[i] = sum(cov[j][i+j])`, `diagsum[i+n0] = sum(cov[n0+j][n0+i+j])`,
`diagsum[i+2*n0] = sum(cov[j][n0+i+j])` and
`diagsum[i+3*n0] = sum(cov[j][n0-i+j])` (each sum over
`j in range(n0-i)`); these slots `q*n0 + i` (`q < 4`, `1 ≤ i < n0`) are
pairwise distinct, and every other cell keeps its initial value `0`. -/
def diagSumAt (cov_mat : List (List ℚ)) (n0 idx : ℕ) : ℚ :=
  if 1 ≤ idx % n0 ∧ idx / n0 < 4 then
    if idx / n0 = 0 then
      ((List.range (n0 - idx % n0)).map
        (fun j => (cov_mat.getD j []).getD (idx % n0 + j) 0)).sum
    else if idx / n0 = 1 then
      ((List.range (n0 - idx % n0)).map
        (fun j => (cov_mat.getD (n0 + j) []).getD (n0 + idx % n0 + j) 0)).sum
    else if idx / n0 = 2 then
      ((List.range (n0 - idx % n0)).map
        (fun j => (cov_mat.getD j []).getD (n0 + idx % n0 + j) 0)).sum
    else
      ((List.range (n0 - idx % n0)).map
        (fun j => (cov_mat.getD j []).getD (n0 - idx % n0 + j) 0)).sum
  else 0

/-- The contents of cell `idx` of the `diagnorm` array: the four slots of
each offset `i` in `range(1, n0)` are multiplied by
`nfactor = sqrt(nsamples / (n0 - i))`. -/
def diagNormAt (o : Oracles) (cov_mat : List (List ℚ)) (nsamples : ℕ)
    (n0 idx : ℕ) : ℚ :=
  if 1 ≤ idx % n0 ∧ idx / n0 < 4 then
    diagSumAt cov_mat n0 idx *
      o.sqrtO ((nsamples : ℚ) / ((n0 : ℚ) - ((idx % n0 : ℕ) : ℚ)))
  else diagSumAt cov_mat n0 idx

/-- The function `diagcov(cov_mat, nsamples)` from saga.py: `chistat` is the sum of the
squares of all `2 * dim` cells of `diagnorm`, and the returned p-value is
`1 - chi2.cdf(chistat, df=4 * (n0 - 1))` with `n0 = dim // 2`. -/
def diagcov (o : Oracles) (cov_mat : List (List ℚ)) (nsamples : ℕ) : ℚ :=
  1 - o.chi2cdf
    (((List.range (2 * cov_mat.length)).map
      (fun idx =>
        (diagNormAt o cov_mat nsamples (cov_mat.length / 2) idx) ^ 2)).sum)
    (4 * (((cov_mat.length / 2 : ℕ) : ℚ) - 1))

/-! Definitions for the multivariate analysis, saga.py lines 207-235. -/

/-- The fields of a constructed `MultivariateSamples` object. -/
structure MultivariateSamples where
  nsamples : ℕ
  dim : ℕ
  data : List (List ℤ)
  exp_mu : ℚ
  exp_si : ℚ
  univariates : List UnivariateSamples
  nb_gaussian_coord : ℕ
  covariance : List (List ℚ)
  DH : ℚ
  AS : ℚ
  PO : ℚ
  PA : ℚ
  dc_pvalue : ℚ
deriving DecidableEq

/-- The constructor `MultivariateSamples.__init__(sigma, list_samples)`: one
`UnivariateSamples(0, sigma, data[i])` per coordinate, the count of
coordinates with `chi2_pvalue > pmin`, the normalized covariance
`cov(data.transpose()) / sigma**2`, the Doornik-Hansen statistics, and the
covariance-diagonal p-value.  An empty sample list raises `IndexError` at
`len(list_samples[0])`; an exception in any per-coordinate univariate
analysis or in `doornik_hansen` propagates out of the constructor (there is
no `try`/`except`), so the statements after it never execute. -/
def mkMultivariateSamples (o : Oracles) (sigma : ℚ)
    (list_samples : List (List ℤ)) : Option MultivariateSamples :=
  if list_samples.isEmpty then none
  else do
    let univs ← (List.range (ncols list_samples)).mapM
      (fun i => mkUnivariateSamples o 0 sigma (colI list_samples i))
    let r ← doornik_hansen o list_samples
    some {
      nsamples := list_samples.length
      dim := ncols list_samples
      data := list_samples
      exp_mu := 0
      exp_si := sigma
      univariates := univs
      nb_gaussian_coord := univs.countP (fun u => decide (pmin < u.chi2_pvalue))
      covariance := (covMat list_samples).map
        (List.map (fun x => x / sigma ^ 2))
      DH := r.1
      AS := r.2.1
      PO := r.2.2.1
      PA := r.2.2.2
      dc_pvalue := diagcov o
        ((covMat list_samples).map (List.map (fun x => x / sigma ^ 2)))
        list_samples.length
    }

/-- A concrete assignment of all oracles, used to instantiate witnesses and
counterexamples: `exp`, `sqrt` are constantly `1`; `log`, cube root, `skew`,
`kurtosis` and `chi2.cdf` are constantly `0`; `corrcoef` returns `[]`;
`eigh` returns `([], [])`; `matrix_rank` is the constant `rank`. -/
def oc (rank : ℕ) : Oracles where
  gexp := fun _ => 1
  chi2cdf := fun _ _ => 0
  sqrtO := fun _ => 1
  logO := fun _ => 0
  cbrtO := fun _ => 0
  skewO := fun _ => 0
  kurtO := fun _ => 0
  corrcoefO := fun _ => []
  eighO := fun _ => ([], [])
  rankO := fun _ => rank

/-- C6: whenever the correlation matrix `R` of the data columns is
rank-deficient (`matrix_rank(R) < d`), `doornik_hansen` raises and never
returns statistics; in particular the dimensionality reduction of the data
is never silently applied (no value is produced at all). -/
theorem claim_C6 (o : Oracles) (data : List (List ℤ))
    (h : o.rankO (dhR o data) < ncols data) :
    doornik_hansen o data = none := by
  unfold doornik_hansen
  rw [if_pos h]

/-- C6 witness: a data matrix with two exactly collinear columns, under an
oracle assignment whose `matrix_rank` reports the deficient rank `1 < 2`. -/
theorem claim_C6_witness :
    doornik_hansen (oc 1) [[1, 1], [2, 2]] = none :=
  claim_C6 (oc 1) [[1, 1], [2, 2]] (by decide)

/-- C8: on every non-degenerate input, `doornik_hansen` returns
`DH = z1·z1 + z2·z2` and
`AS = (n/6)·skew·skew + (n/24)·kurt2·kurt2` (with `kurt2` the excess
kurtosis `kurt - 3`), and p-values `PO`, `PA` computed from `DH` and `AS`
against a chi-square distribution with `2d` degrees of freedom. -/
theorem claim_C8 (o : Oracles) (data : List (List ℤ)) (dh asv po pa : ℚ)
    (h : doornik_hansen o data = some (dh, asv, po, pa)) :
    dh = dotProd (dhZ1 o data) (dhZ1 o data) +
      dotProd (dhZ2 o data) (dhZ2 o data) ∧
    asv = (data.length : ℚ) / 6 * dotProd (dhSkew o data) (dhSkew o data) +
      (data.length : ℚ) / 24 * dotProd (dhKurt2 o data) (dhKurt2 o data) ∧
    po = 1 - o.chi2cdf dh (2 * (ncols data : ℚ)) ∧
    pa = 1 - o.chi2cdf asv (2 * (ncols data : ℚ)) := by
  unfold doornik_hansen at h
  split at h
  · simp at h
  · simp only [Option.some.injEq, Prod.mk.injEq] at h
    obtain ⟨rfl, rfl, rfl, rfl⟩ := h
    exact ⟨rfl, rfl, rfl, rfl⟩

/-- C8 witness: instantiation at a full-rank oracle assignment and a
2-sample, 2-column data matrix. -/
theorem claim_C8_witness :
    dhDH (oc 2) [[0, 0], [0, 0]] =
      dotProd (dhZ1 (oc 2) [[0, 0], [0, 0]]) (dhZ1 (oc 2) [[0, 0], [0, 0]]) +
      dotProd (dhZ2 (oc 2) [[0, 0], [0, 0]]) (dhZ2 (oc 2) [[0, 0], [0, 0]]) ∧
    dhAS (oc 2) [[0, 0], [0, 0]] =
      (([[0, 0], [0, 0]] : List (List ℤ)).length : ℚ) / 6 *
        dotProd (dhSkew (oc 2) [[0, 0], [0, 0]])
          (dhSkew (oc 2) [[0, 0], [0, 0]]) +
      (([[0, 0], [0, 0]] : List (List ℤ)).length : ℚ) / 24 *
        dotProd (dhKurt2 (oc 2) [[0, 0], [0, 0]])
          (dhKurt2 (oc 2) [[0, 0], [0, 0]]) ∧
    1 - (oc 2).chi2cdf (dhDH (oc 2) [[0, 0], [0, 0]])
        (2 * (ncols [[0, 0], [0, 0]] : ℚ)) =
      1 - (oc 2).chi2cdf (dhDH (oc 2) [[0, 0], [0, 0]])
        (2 * (ncols [[0, 0], [0, 0]] : ℚ)) ∧
    1 - (oc 2).chi2cdf (dhAS (oc 2) [[0, 0], [0, 0]])
        (2 * (ncols [[0, 0], [0, 0]] : ℚ)) =
      1 - (oc 2).chi2cdf (dhAS (oc 2) [[0, 0], [0, 0]])
        (2 * (ncols [[0, 0], [0, 0]] : ℚ)) :=
  claim_C8 (oc 2) [[0, 0], [0, 0]] _ _ _ _ (by
    unfold doornik_hansen
    rw [if_neg (by decide)])

/-! Specification-side reading of the covariance-diagonals test. -/

/-- The sum of the elements of the parallel diagonal at offset `i` in
quadrant-diagonal family `q` of the `d × d` covariance matrix
(`n0 = d / 2`; each diagonal has `n0 - i` elements): family 0 is the
diagonals above the leading diagonal of the upper-left quadrant, family 1
the same for the lower-right quadrant, family 2 the diagonals above the
quadrant-1 → quadrant-3 super-diagonal, family 3 those below it. -/
def specFamilySum (cov_mat : List (List ℚ)) (n0 q i : ℕ) : ℚ :=
  if q = 0 then
    ((List.range (n0 - i)).map
      (fun j => (cov_mat.getD j []).getD (i + j) 0)).sum
  else if q = 1 then
    ((List.range (n0 - i)).map
      (fun j => (cov_mat.getD (n0 + j) []).getD (n0 + i + j) 0)).sum
  else if q = 2 then
    ((List.range (n0 - i)).map
      (fun j => (cov_mat.getD j []).getD (n0 + i + j) 0)).sum
  else
    ((List.range (n0 - i)).map
      (fun j => (cov_mat.getD j []).getD (n0 - i + j) 0)).sum

/-- The specified covariance-diagonal statistic: for each of the four
families and each offset `i` from `1` to `n0 - 1`, normalize the diagonal
sum by `sqrt(nsamples / (n0 - i))` (the diagonal length is `n0 - i`) and
add up the squares of all `4 * (n0 - 1)` normalized values. -/
def specDiagStat (o : Oracles) (cov_mat : List (List ℚ)) (nsamples : ℕ)
    (n0 : ℕ) : ℚ :=
  ((List.range 4).map (fun q =>
    ((List.range (n0 - 1)).map (fun k =>
      (specFamilySum cov_mat n0 q (k + 1) *
        o.sqrtO ((nsamples : ℚ) / ((n0 : ℚ) - ((k + 1 : ℕ) : ℚ)))) ^ 2)).sum)).sum

theorem list_range_map_sum (m : ℕ) (f : ℕ → ℚ) :
    ((List.range m).map f).sum = ∑ i ∈ Finset.range m, f i := by
  induction m with
  | zero => simp
  | succ k ih =>
    rw [List.range_succ, List.map_append, List.sum_append,
      Finset.sum_range_succ, ih]
    simp

theorem sum_range_four_chunks (n0 : ℕ) (h0 : 0 < n0) (f : ℕ → ℚ) :
    ∑ idx ∈ Finset.range (4 * n0), f idx =
      ∑ q ∈ Finset.range 4, ∑ r ∈ Finset.range n0, f (q * n0 + r) := by
  rw [← Finset.sum_product']
  symm
  apply Finset.sum_nbij' (fun (p : ℕ × ℕ) => p.1 * n0 + p.2)
    (fun idx => (idx / n0, idx % n0))
  · rintro ⟨q, r⟩ hp
    simp only [Finset.mem_product, Finset.mem_range] at hp
    simp only [Finset.mem_range]
    calc q * n0 + r < q * n0 + n0 := by omega
    _ = (q + 1) * n0 := by ring
    _ ≤ 4 * n0 := Nat.mul_le_mul_right n0 (by omega)
  · intro idx hidx
    simp only [Finset.mem_range] at hidx
    simp only [Finset.mem_product, Finset.mem_range]
    constructor
    · rw [Nat.div_lt_iff_lt_mul h0]
      omega
    · exact Nat.mod_lt idx h0
  · rintro ⟨q, r⟩ hp
    simp only [Finset.mem_product, Finset.mem_range] at hp
    have hmod : (q * n0 + r) % n0 = r := by
      rw [Nat.mul_comm, Nat.mul_add_mod, Nat.mod_eq_of_lt hp.2]
    have hdiv : (q * n0 + r) / n0 = q := by
      rw [Nat.mul_comm, Nat.mul_add_div h0, Nat.div_eq_of_lt hp.2]
      omega
    simp [hmod, hdiv]
  · intro idx hidx
    simp only
    rw [Nat.mul_comm, Nat.div_add_mod]
  · rintro ⟨q, r⟩ hp
    rfl

theorem diagSumAt_n0_zero (cov_mat : List (List ℚ)) (idx : ℕ) :
    diagSumAt cov_mat 0 idx = 0 := by
  unfold diagSumAt
  split_ifs <;> simp [Nat.zero_sub]

theorem diagNormAt_n0_zero (o : Oracles) (cov_mat : List (List ℚ))
    (nsamples idx : ℕ) : diagNormAt o cov_mat nsamples 0 idx = 0 := by
  unfold diagNormAt
  split_ifs <;> simp [diagSumAt_n0_zero]

theorem diagNormAt_oob (o : Oracles) (cov_mat : List (List ℚ))
    (nsamples n0 idx : ℕ) (h : ¬(1 ≤ idx % n0 ∧ idx / n0 < 4)) :
    diagNormAt o cov_mat nsamples n0 idx = 0 := by
  unfold diagNormAt diagSumAt
  rw [if_neg h, if_neg h]

theorem diagNormAt_r0 (o : Oracles) (cov_mat : List (List ℚ))
    (nsamples n0 q : ℕ) :
    diagNormAt o cov_mat nsamples n0 (q * n0) = 0 := by
  apply diagNormAt_oob
  rintro ⟨h1, -⟩
  rw [Nat.mul_mod_left] at h1
  omega

theorem diagNormAt_eval (o : Oracles) (cov_mat : List (List ℚ))
    (nsamples n0 q k : ℕ) (h0 : 0 < n0) (hk : k + 1 < n0) (hq : q < 4) :
    diagNormAt o cov_mat nsamples n0 (q * n0 + (k + 1)) =
      specFamilySum cov_mat n0 q (k + 1) *
        o.sqrtO ((nsamples : ℚ) / ((n0 : ℚ) - ((k + 1 : ℕ) : ℚ))) := by
  have hmod : (q * n0 + (k + 1)) % n0 = k + 1 := by
    rw [Nat.mul_comm, Nat.mul_add_mod, Nat.mod_eq_of_lt hk]
  have hdiv : (q * n0 + (k + 1)) / n0 = q := by
    rw [Nat.mul_comm, Nat.mul_add_div h0, Nat.div_eq_of_lt hk]
    omega
  unfold diagNormAt diagSumAt specFamilySum
  rw [hmod, hdiv, if_pos ⟨by omega, hq⟩, if_pos ⟨by omega, hq⟩]

theorem sum_range_split_zero (m : ℕ) (h : 0 < m) (g : ℕ → ℚ) (hg0 : g 0 = 0) :
    ∑ r ∈ Finset.range m, g r = ∑ k ∈ Finset.range (m - 1), g (k + 1) := by
  obtain ⟨m', rfl⟩ : ∃ m', m = m' + 1 := ⟨m - 1, by omega⟩
  rw [Finset.sum_range_succ']
  simp [hg0]

/-- C9: `diagcov` returns the single p-value of the statistic that sums,
over the four quadrant-diagonal families and the offsets `1` to
`d/2 - 1`, the squares of the diagonal sums normalized by
`sqrt(n / diagonal_length)`, against a chi-square distribution with
`4 * (d/2 - 1)` degrees of freedom. -/
theorem claim_C9 (o : Oracles) (cov_mat : List (List ℚ)) (nsamples : ℕ) :
    diagcov o cov_mat nsamples =
      1 - o.chi2cdf
        (specDiagStat o cov_mat nsamples (cov_mat.length / 2))
        (4 * (((cov_mat.length / 2 : ℕ) : ℚ) - 1)) := by
  unfold diagcov
  have hstat : ((List.range (2 * cov_mat.length)).map
      (fun idx =>
        (diagNormAt o cov_mat nsamples (cov_mat.length / 2) idx) ^ 2)).sum =
      specDiagStat o cov_mat nsamples (cov_mat.length / 2) := by
    unfold specDiagStat
    simp only [list_range_map_sum]
    rcases Nat.eq_zero_or_pos (cov_mat.length / 2) with h0 | h0
    · rw [h0]
      rw [Finset.sum_eq_zero (fun idx _ => by
        rw [diagNormAt_n0_zero]
        ring)]
      rw [Finset.sum_eq_zero (fun q _ => by simp)]
    · rw [show ∑ idx ∈ Finset.range (2 * cov_mat.length),
          (diagNormAt o cov_mat nsamples (cov_mat.length / 2) idx) ^ 2 =
          ∑ idx ∈ Finset.range (4 * (cov_mat.length / 2)),
          (diagNormAt o cov_mat nsamples (cov_mat.length / 2) idx) ^ 2 by
        symm
        apply Finset.sum_subset
        · apply Finset.range_subset.mpr
          omega
        · intro x _ hx
          simp only [Finset.mem_range, not_lt] at hx
          rw [diagNormAt_oob o cov_mat nsamples _ x (by
            rintro ⟨-, h4⟩
            rw [Nat.div_lt_iff_lt_mul h0] at h4
            omega)]
          ring]
      rw [sum_range_four_chunks (cov_mat.length / 2) h0]
      apply Finset.sum_congr rfl
      intro q hq
      rw [sum_range_split_zero (cov_mat.length / 2) h0 _ (by
        rw [Nat.add_zero, diagNormAt_r0]
        ring)]
      apply Finset.sum_congr rfl
      intro k hk
      rw [diagNormAt_eval o cov_mat nsamples (cov_mat.length / 2) q k h0
        (by have := Finset.mem_range.mp hk; omega)
        (Finset.mem_range.mp hq)]
  rw [hstat]

/-! Concrete evaluations used by witnesses and counterexamples: the
sampler configuration `mu = 0`, `sigma = 1/28` (support `[-1, 0]`) with 20
samples per coordinate. -/

theorem eval_pdtSupport : pdtSupport 0 (1/28) = [-1, 0] := by
  unfold pdtSupport qceil
  norm_num [ratFloor_eq, tau]
  decide

theorem eval_pdt :
    make_gaussian_pdt (fun _ => (1 : ℚ)) 0 (1/28) =
      some [(-1, 1/2), (0, 1/2)] := by
  have hraw : pdtRawSum (fun _ => (1 : ℚ)) 0 (1/28) = 2 := by
    unfold pdtRawSum
    rw [eval_pdtSupport]
    norm_num
  rw [make_gaussian_pdt_eq _ _ _ (by norm_num), hraw, eval_pdtSupport]
  norm_num

theorem eval_sweep (a b : ℤ) :
    outerLoop (chi2_bucket / ((20 : ℕ) : ℚ)) 0 [a, b] [1/2, 1/2] =
      ([a, b], [1/2, 1/2]) := by
  rw [outerLoop, if_neg (by norm_num), innerLoop,
    dif_neg (by norm_num [chi2_bucket]), outerLoop, if_pos (by norm_num)]

theorem eval_pyRound_int (q : ℚ) (n : ℤ) (h : q = (n : ℚ)) : pyRound q = n := by
  subst h
  unfold pyRound
  rw [ratFloor_eq]
  simp [Int.floor_intCast]

theorem eval_chisquareRun (a b : ℤ) :
    chisquareRun (fun _ _ => (0 : ℚ)) 20 [a, b] [1/2, 1/2] =
      some ((((a : ℚ) + (b : ℚ)) - 20) ^ 2 / 20, 1) := by
  unfold chisquareRun
  rw [eval_sweep, if_neg (by norm_num)]
  have hm1 : mergeLast2 (0 : ℤ) [a, b] = [a + b] := by
    unfold mergeLast2
    simp
  have hm2 : mergeLast2 (0 : ℚ) [1/2, 1/2] = [1/2 + 1/2] := by
    unfold mergeLast2
    simp
  rw [hm1, hm2]
  unfold chisquareTail pearsonStat
  rw [show ([(1/2 + 1/2 : ℚ)]).map (fun prob => pyRound (prob * (20 : ℕ))) =
    [20] by
    simp only [List.map_cons, List.map_nil]
    rw [eval_pyRound_int ((1/2 + 1/2 : ℚ) * (20 : ℕ)) 20 (by norm_num)]]
  simp only [List.zipWith_cons_cons, List.zipWith_nil_right, List.sum_cons,
    List.sum_nil]
  push_cast
  norm_num

theorem eval_univChisquare (r : ℕ) (a b : ℕ) :
    univChisquare (oc r) 0 (1/28) 20 [(-1, a), (0, b)] =
      some ((((a : ℚ) + (b : ℚ)) - 20) ^ 2 / 20, 1) := by
  unfold univChisquare
  have hg : (oc r).gexp = fun _ => (1 : ℚ) := rfl
  rw [hg, eval_pdt]
  have hc : (oc r).chi2cdf = fun _ _ => (0 : ℚ) := rfl
  simp only [Option.bind_eq_bind, Option.some_bind, List.map_cons,
    List.map_nil, hc]
  have := eval_chisquareRun (a : ℤ) (b : ℤ)
  simpa using this

theorem eval_univA (r : ℕ) :
    mkUnivariateSamples (oc r) 0 (1/28) (List.replicate 20 0) = some
      { exp_mu := 0, exp_sigma := 1/28, nsamples := 20,
        histogram := [(-1, 0), (0, 20)], outlier := 0,
        mean := 0, variance := 0, skewness := 0, kurtosis := 0, stdev := 1,
        chi2_stat := 0, chi2_pvalue := 1, is_valid := true } := by
  have hhist : histogramOf 0 (1/28) (List.replicate 20 0) =
      [(-1, 0), (0, 20)] := by
    unfold histogramOf initHist
    rw [eval_pdtSupport]
    decide
  have houtl : outlierCount 0 (1/28) (List.replicate 20 0) = 0 := by
    unfold outlierCount initHist
    rw [eval_pdtSupport]
    decide
  have hchi := eval_univChisquare r 0 20
  norm_num at hchi
  unfold mkUnivariateSamples
  rw [if_neg (by decide), show (List.replicate 20 (0 : ℤ)).length = 20 by
    decide, hhist, hchi]
  simp only [Option.bind_eq_bind, Option.some_bind, Option.some.injEq]
  rw [UnivariateSamples.mk.injEq]
  refine ⟨rfl, rfl, rfl, rfl, houtl, ?_, ?_, rfl, rfl, ?_, rfl, rfl, ?_⟩
  · unfold sampleMean
    simp
  · unfold moment2 sampleMean
    simp
  · show (oc r).sqrtO (moment2 (List.replicate 20 0)) = 1
    rfl
  · rw [houtl]
    norm_num [pmin]

theorem eval_univB (r : ℕ) :
    mkUnivariateSamples (oc r) 0 (1/28) (5 :: List.replicate 19 0) = some
      { exp_mu := 0, exp_sigma := 1/28, nsamples := 20,
        histogram := [(-1, 0), (0, 19)], outlier := 1,
        mean := 1/4, variance := 19/16, skewness := 0, kurtosis := 0,
        stdev := 1, chi2_stat := 1/20, chi2_pvalue := 1,
        is_valid := false } := by
  have hhist : histogramOf 0 (1/28) (5 :: List.replicate 19 0) =
      [(-1, 0), (0, 19)] := by
    unfold histogramOf initHist
    rw [eval_pdtSupport]
    decide
  have houtl : outlierCount 0 (1/28) (5 :: List.replicate 19 0) = 1 := by
    unfold outlierCount initHist
    rw [eval_pdtSupport]
    decide
  have hchi := eval_univChisquare r 0 19
  norm_num at hchi
  unfold mkUnivariateSamples
  rw [if_neg (by decide), show (5 :: List.replicate 19 (0 : ℤ)).length = 20 by
    decide, hhist, hchi]
  simp only [Option.bind_eq_bind, Option.some_bind, Option.some.injEq]
  rw [UnivariateSamples.mk.injEq]
  refine ⟨rfl, rfl, rfl, rfl, houtl, ?_, ?_, rfl, rfl, ?_, rfl, rfl, ?_⟩
  · unfold sampleMean
    simp [List.map_cons, List.map_replicate, List.sum_replicate]
    norm_num
  · unfold moment2 sampleMean
    simp [List.map_cons, List.map_replicate, List.sum_replicate, nsmul_eq_mul]
    norm_num
  · show (oc r).sqrtO (moment2 (5 :: List.replicate 19 0)) = 1
    rfl
  · rw [houtl]
    simp

/-- C1 counterexample: an oracle assignment whose `matrix_rank` reports a
deficient rank makes `doornik_hansen` raise on the 20-sample 2-dimensional
zero data set (`sigma = 1/28 > 0`, non-empty, all rows of dimension 2);
both per-coordinate univariate analyses succeed on their own, yet
`MultivariateSamples` construction produces nothing at all — in particular
no covariance-diagonal p-value — because the Doornik-Hansen exception
propagates out of `__init__`. -/
theorem claim_C1_counterexample :
    (0 : ℚ) < 1/28 ∧
    (List.replicate 20 ([0, 0] : List ℤ)).all (fun r => r.length == 2) = true ∧
    (List.replicate 20 ([0, 0] : List ℤ)) ≠ [] ∧
    (mkUnivariateSamples (oc 1) 0 (1/28)
      (colI (List.replicate 20 [0, 0]) 0)).isSome = true ∧
    (mkUnivariateSamples (oc 1) 0 (1/28)
      (colI (List.replicate 20 [0, 0]) 1)).isSome = true ∧
    doornik_hansen (oc 1) (List.replicate 20 [0, 0]) = none ∧
    mkMultivariateSamples (oc 1) (1/28) (List.replicate 20 [0, 0]) = none := by
  have hdh : doornik_hansen (oc 1) (List.replicate 20 [0, 0]) = none := by
    unfold doornik_hansen
    rw [if_pos (by decide)]
  refine ⟨by norm_num, by decide, by decide, ?_, ?_, hdh, ?_⟩
  · rw [show colI (List.replicate 20 ([0, 0] : List ℤ)) 0 =
      List.replicate 20 0 by decide, eval_univA 1]
    rfl
  · rw [show colI (List.replicate 20 ([0, 0] : List ℤ)) 1 =
      List.replicate 20 0 by decide, eval_univA 1]
    rfl
  · unfold mkMultivariateSamples
    rw [if_neg (by decide)]
    rw [show List.range (ncols (List.replicate 20 ([0, 0] : List ℤ))) =
      [0, 1] by decide]
    rw [List.mapM_cons, List.mapM_cons, List.mapM_nil]
    rw [show colI (List.replicate 20 ([0, 0] : List ℤ)) 0 =
      List.replicate 20 0 by decide,
      show colI (List.replicate 20 ([0, 0] : List ℤ)) 1 =
      List.replicate 20 0 by decide, eval_univA 1]
    simp only [Option.bind_eq_bind, Option.some_bind]
    rw [hdh]
    rfl

/-- C1 (amended): when `doornik_hansen` raises, the `MultivariateSamples`
construction does not isolate the failure: the exception propagates out of
`__init__`, so no object is produced and the covariance-diagonal p-value is
never computed (even though the per-coordinate univariate analyses run
before the failing call). -/
theorem claim_C1_amended (o : Oracles) (sigma : ℚ) (data : List (List ℤ))
    (h : doornik_hansen o data = none) :
    mkMultivariateSamples o sigma data = none := by
  unfold mkMultivariateSamples
  by_cases he : data.isEmpty
  · rw [if_pos he]
  · rw [if_neg he]
    cases hm : (List.range (ncols data)).mapM
        (fun i => mkUnivariateSamples o 0 sigma (colI data i)) with
    | none => simp [hm]
    | some univs => simp [hm, h]

/-- C1 witness: the amended propagation fact at a concrete degenerate
input. -/
theorem claim_C1_witness :
    mkMultivariateSamples (oc 1) 1 [[1, 1], [2, 2]] = none :=
  claim_C1_amended (oc 1) 1 [[1, 1], [2, 2]] (by
    unfold doornik_hansen
    rw [if_pos (by decide)])

/-- C7 counterexample: a 20-sample 2-dimensional data set whose first
coordinate contains the out-of-support sample `5`.  With the chi-square CDF
oracle constantly `0` every p-value is `1 > pmin`, so the constructor's
`nb_gaussian_coord` (which tests only `chi2_pvalue > pmin`) is `2`, yet
only `1` coordinate passes the full univariate validation (`is_valid`),
because coordinate 0 has an outlier. -/
theorem claim_C7_counterexample :
    (mkMultivariateSamples (oc 2) (1/28)
        ([5, 0] :: List.replicate 19 [0, 0])).map
      (fun s => (s.nb_gaussian_coord,
        s.univariates.countP (fun u => u.is_valid))) = some (2, 1) := by
  unfold mkMultivariateSamples
  rw [if_neg (by decide)]
  rw [show List.range (ncols (([5, 0] :: List.replicate 19 [0, 0]) :
    List (List ℤ))) = [0, 1] by decide]
  rw [List.mapM_cons, List.mapM_cons, List.mapM_nil]
  rw [show colI (([5, 0] :: List.replicate 19 [0, 0]) : List (List ℤ)) 0 =
    5 :: List.replicate 19 0 by decide,
    show colI (([5, 0] :: List.replicate 19 [0, 0]) : List (List ℤ)) 1 =
    List.replicate 20 0 by decide, eval_univB 2, eval_univA 2]
  rw [show doornik_hansen (oc 2) ([5, 0] :: List.replicate 19 [0, 0]) =
    some (dhDH (oc 2) ([5, 0] :: List.replicate 19 [0, 0]),
      dhAS (oc 2) ([5, 0] :: List.replicate 19 [0, 0]),
      1 - (oc 2).chi2cdf (dhDH (oc 2) ([5, 0] :: List.replicate 19 [0, 0]))
        (2 * (ncols ([5, 0] :: List.replicate 19 [0, 0]) : ℚ)),
      1 - (oc 2).chi2cdf (dhAS (oc 2) ([5, 0] :: List.replicate 19 [0, 0]))
        (2 * (ncols ([5, 0] :: List.replicate 19 [0, 0]) : ℚ))) from by
    unfold doornik_hansen
    rw [if_neg (by decide)]]
  have hd1 : decide (pmin < (1 : ℚ)) = true :=
    decide_eq_true (by norm_num [pmin])
  simp [List.countP_cons, hd1]

/-- C7 (amended): `MultivariateSamples` runs one univariate validator per
coordinate with center 0 and the declared `sigma`, and sets the normalized
covariance to the sample covariance divided by `sigma²`, as claimed; but
the per-coordinate pass count `nb_gaussian_coord` counts the coordinates
whose chi-square p-value exceeds `pmin` only — a coordinate with outliers
(hence failing the full univariate validation) is still counted. -/
theorem claim_C7_amended (o : Oracles) (sigma : ℚ) (data : List (List ℤ))
    (hs : 0 < sigma) (hne : data ≠ []) :
    ∀ s, mkMultivariateSamples o sigma data = some s →
      ((List.range (ncols data)).mapM
        (fun i => mkUnivariateSamples o 0 sigma (colI data i)) =
          some s.univariates ∧
      s.nb_gaussian_coord =
        s.univariates.countP (fun u => decide (pmin < u.chi2_pvalue)) ∧
      s.covariance =
        (covMat data).map (List.map (fun x => x / sigma ^ 2))) := by
  intro s h
  unfold mkMultivariateSamples at h
  rw [if_neg (by simpa [List.isEmpty_iff] using hne)] at h
  cases hm : (List.range (ncols data)).mapM
      (fun i => mkUnivariateSamples o 0 sigma (colI data i)) with
  | none => rw [hm] at h; simp at h
  | some univs =>
    rw [hm] at h
    cases hdh : doornik_hansen o data with
    | none => rw [hdh] at h; simp at h
    | some r =>
      rw [hdh] at h
      simp only [Option.bind_eq_bind, Option.some_bind,
        Option.some.injEq] at h
      subst h
      exact ⟨rfl, rfl, rfl⟩

/-- C7 witness: the amended statement instantiated at a concrete
configuration. -/
theorem claim_C7_witness :
    (0 : ℚ) < 1/28 ∧
    (List.replicate 20 ([0, 0] : List ℤ)) ≠ [] ∧
    ∀ s, mkMultivariateSamples (oc 2) (1/28)
        (List.replicate 20 [0, 0]) = some s →
      ((List.range (ncols (List.replicate 20 ([0, 0] : List ℤ)))).mapM
        (fun i => mkUnivariateSamples (oc 2) 0 (1/28)
          (colI (List.replicate 20 [0, 0]) i)) = some s.univariates ∧
      s.nb_gaussian_coord =
        s.univariates.countP (fun u => decide (pmin < u.chi2_pvalue)) ∧
      s.covariance = (covMat (List.replicate 20 [0, 0])).map
        (List.map (fun x => x / (1/28 : ℚ) ^ 2))) :=
  ⟨by norm_num, by decide,
    claim_C7_amended (oc 2) (1/28) (List.replicate 20 [0, 0])
      (by norm_num) (by decide)⟩

end SAGA
